import Mathlib

/-!
# Shallow embedding of `src/mymalloc.c`

A first-fit heap allocator over a singly linked list of block headers.
Machine addresses are modelled as `Nat`, with `0` playing the role of the
null pointer (C's `NULL` is the integer 0, and `static block_t *head = 0`).
The heap of headers is an association list from header address to header
record, kept in creation order (headers are only ever appended, mirroring
the C list which links new nodes after the last node).

The two platform constants are fixed at their common LP64 / 4 KiB values:
`sizeof(block_t)` = 8 (size_t) + 8 (pointer) + 4 (int) padded to 24, and
`sysconf(_SC_PAGE_SIZE)` = 4096.

The OS primitives are modelled as oracle arguments: `sbrkOk : Bool` tells
whether the `sbrk(s + BLOCK_SIZE)` call succeeds (the program break itself
is tracked in the state), and `mmapRes : Option Nat` is the base address
returned by `mmap`, with `none` modelling `MAP_FAILED`.
-/

set_option autoImplicit false

namespace MyMalloc

/-- `#define BLOCK_SIZE sizeof(block_t)` — 24 bytes on LP64. -/
def BLOCK_SIZE : Nat := 24

/-- `#define PAGE_SIZE sysconf(_SC_PAGE_SIZE)` — 4096 bytes. -/
def PAGE_SIZE : Nat := 4096

/-- The `block_t` header: `size` (usable bytes beyond the header), `next`
(address of the next header, 0 = NULL), `free` (reusability flag). -/
structure block_t where
  size : Nat
  next : Nat
  free : Bool
  deriving DecidableEq, Repr

/-- Allocator state: the headers living in memory (address ↦ header, in
creation order), the global `head` pointer (0 = uninitialized), and the
current program break. -/
structure State where
  mem : List (Nat × block_t)
  head : Nat
  brk : Nat
  deriving DecidableEq, Repr

/-- Header addresses of a heap, in creation order. -/
def keys (mem : List (Nat × block_t)) : List Nat := mem.map Prod.fst

/-- Read the header stored at address `a`; `none` models dereferencing an
address at which no header lives (in particular the null address). -/
def readBlock : List (Nat × block_t) → Nat → Option block_t
  | [], _ => none
  | p :: tl, a => if p.1 = a then some p.2 else readBlock tl a

/-- Update the header stored at address `a` in place. -/
def writeBlock (mem : List (Nat × block_t)) (a : Nat) (f : block_t → block_t) :
    List (Nat × block_t) :=
  mem.map (fun p => if p.1 = a then (p.1, f p.2) else p)

/-- `init_mem`: bootstrap of the list.  `pt = sbrk(0)`; if `sbrk(s +
BLOCK_SIZE)` fails, return NULL (state untouched); otherwise install the
new header as `head` with `size = s`, `free = 0`, `next = NULL`. -/
def init_mem (s : Nat) (sbrkOk : Bool) (st : State) : Nat × State :=
  let pt := st.brk
  if sbrkOk then
    (pt, { mem := st.mem ++ [(pt, { size := s, next := 0, free := false })],
           head := pt,
           brk := st.brk + (s + BLOCK_SIZE) })
  else
    (0, st)

/-- Result of the traversal loop in `nextBlock`: either a free block was
claimed (`found`), or the loop ran off the end and fell through to the
growth logic with the last node in hand (`fallthrough`), or the traversal
dereferenced the null pointer / an address holding no header (`fault`,
undefined behavior in the C source). -/
inductive SearchOutcome where
  | found (a : Nat)
  | fallthrough (a : Nat)
  | fault
  deriving DecidableEq, Repr

/-- The `while (i->next != NULL)` loop of `nextBlock`, plus the trailing
check of the last node.  `fuel` bounds the number of dereferences (any
value at least the chain length is enough; running out models a cyclic
chain, which like a wild dereference is undefined behavior in C).
The in-place `i->free = 0` of the C source is applied by `nextBlock`
on the address this loop returns. -/
def searchLoop (mem : List (Nat × block_t)) (s : Nat) : Nat → Nat → SearchOutcome
  | 0, _ => .fault
  | fuel+1, i =>
    if i = 0 then .fault
    else
      match readBlock mem i with
      | none => .fault
      | some b =>
        if b.next ≠ 0 then
          if b.free && decide (s ≤ b.size) then .found i
          else searchLoop mem s fuel b.next
        else
          if b.free && decide (s ≤ b.size) then .found i
          else .fallthrough i

/-- `totPage` as computed in `allocMap`: `(s + BLOCK_SIZE) / PAGE_SIZE`,
incremented when the division is not exact. -/
def totPageOf (s : Nat) : Nat :=
  let t := (s + BLOCK_SIZE) / PAGE_SIZE
  if (s + BLOCK_SIZE) % PAGE_SIZE ≠ 0 then t + 1 else t

/-- The condition in `allocMap` under which the mapped region is *not*
split: `(s + BLOCK_SIZE) % PAGE_SIZE == 0 || (totPage * PAGE_SIZE) - s -
BLOCK_SIZE < BLOCK_SIZE + 1` (C `size_t` arithmetic; the subtraction
never wraps because `totPage * PAGE_SIZE ≥ s + BLOCK_SIZE`). -/
def noSplitCond (s : Nat) : Bool :=
  ((s + BLOCK_SIZE) % PAGE_SIZE == 0) ||
  decide (totPageOf s * PAGE_SIZE - s - BLOCK_SIZE < BLOCK_SIZE + 1)

/-- `allocMap`: mmap-based path for large requests.  On `MAP_FAILED`
return NULL.  Otherwise either link a single in-use header of size `s` at
the mapped base after `last`, or split the mapping into `split1` (in use,
size `s`) and `split2` (free, the exact remainder), linked in that order
after `last`. -/
def allocMap (s : Nat) (last : Nat) (mmapRes : Option Nat) (st : State) :
    Nat × State :=
  match mmapRes with
  | none => (0, st)
  | some pt =>
    if noSplitCond s then
      (pt, { st with
             mem := writeBlock st.mem last (fun b => { b with next := pt }) ++
                    [(pt, { size := s, next := 0, free := false })] })
    else
      let split2 := pt + s + BLOCK_SIZE
      (pt, { st with
             mem := writeBlock st.mem last (fun b => { b with next := pt }) ++
                    [(pt, { size := s, next := split2, free := false }),
                     (split2, { size := totPageOf s * PAGE_SIZE - s - 2 * BLOCK_SIZE,
                                next := 0, free := true })] })

/-- `expandHeap`: sbrk-based path for small requests.  `pt = sbrk(0)`;
on failure return NULL, otherwise link one in-use header of size `s` at
the old break after `last`. -/
def expandHeap (s : Nat) (last : Nat) (sbrkOk : Bool) (st : State) :
    Nat × State :=
  let pt := st.brk
  if sbrkOk then
    (pt, { st with
           mem := writeBlock st.mem last (fun b => { b with next := pt }) ++
                  [(pt, { size := s, next := 0, free := false })],
           brk := st.brk + (s + BLOCK_SIZE) })
  else (0, st)

/-- `nextBlock`: first-fit search over the list; on a hit the found
header's `free` flag is cleared and its address returned; otherwise fall
through to `allocMap` (when `s + BLOCK_SIZE >= PAGE_SIZE`) or
`expandHeap`, passing the last node.  The outer `none` models the
undefined behavior of a faulting traversal. -/
def nextBlock (s : Nat) (sbrkOk : Bool) (mmapRes : Option Nat) (st : State) :
    Option (Nat × State) :=
  match searchLoop st.mem s st.mem.length st.head with
  | .fault => none
  | .found i =>
    some (i, { st with mem := writeBlock st.mem i (fun b => { b with free := false }) })
  | .fallthrough i =>
    if PAGE_SIZE ≤ s + BLOCK_SIZE then some (allocMap s i mmapRes st)
    else some (expandHeap s i sbrkOk st)

/-- `mymalloc`: if `head == 0`, bootstrap and return
`(block_t *) init_mem(s) + 1` — note the C source performs *no* NULL
check on this path, so a failed `init_mem` yields the address
`0 + BLOCK_SIZE`.  Otherwise delegate to `nextBlock`; a NULL result
there is propagated (after a `perror`) as NULL. -/
def mymalloc (s : Nat) (sbrkOk : Bool) (mmapRes : Option Nat) (st : State) :
    Option (Nat × State) :=
  if st.head = 0 then
    let r := init_mem s sbrkOk st
    some (r.1 + BLOCK_SIZE, r.2)
  else
    match nextBlock s sbrkOk mmapRes st with
    | none => none
    | some (next, st1) =>
      if next = 0 then some (0, st1)
      else some (next + BLOCK_SIZE, st1)

/-- `mycalloc`: computes `total = nmemb * s`, delegates to `mymalloc`,
then calls `memset(rslt, 0, total)` *unconditionally* on whatever
`mymalloc` returned.  The last two components of the result record the
pointer and the length handed to `memset` (memory contents themselves
are not modelled). -/
def mycalloc (nmemb s : Nat) (sbrkOk : Bool) (mmapRes : Option Nat) (st : State) :
    Option (Nat × State × Nat × Nat) :=
  let total := nmemb * s
  match mymalloc total sbrkOk mmapRes st with
  | none => none
  | some (rslt, st1) => some (rslt, st1, rslt, total)

/-- `myfree`: step back exactly one header (`current = (block_t *)ptr - 1`)
and set its `free` flag. -/
def myfree (ptr : Nat) (st : State) : State :=
  let current := ptr - BLOCK_SIZE
  { st with mem := writeBlock st.mem current (fun b => { b with free := true }) }

/-- A fresh process-wide state: no headers, `head = 0`, program break at
`brk0`. -/
def initialState (brk0 : Nat) : State := { mem := [], head := 0, brk := brk0 }

/-! ## Specification-side notions -/

/-- First-fit: the address of the first header in list order with
`free == true && size >= s`. -/
def firstFit (s : Nat) (mem : List (Nat × block_t)) : Option Nat :=
  match mem.find? (fun p => p.2.free && decide (s ≤ p.2.size)) with
  | some p => some p.1
  | none => none

/-- Address of the last header in creation order (0 for an empty heap). -/
def lastKey : List (Nat × block_t) → Nat
  | [] => 0
  | [p] => p.1
  | _ :: q :: rest => lastKey (q :: rest)

/-- The `next`-chain starting at `h` runs exactly through the given
headers in order and ends at NULL. -/
def isChainB (h : Nat) : List (Nat × block_t) → Bool
  | [] => h == 0
  | (a, b) :: rest => (h == a) && isChainB b.next rest

/-- Well-formed state: the creation-order heap is exactly the `next`-chain
from `head`, header addresses are distinct, and no header lives at the
null address. -/
def wf (st : State) : Prop :=
  isChainB st.head st.mem = true ∧ (keys st.mem).Nodup ∧ ∀ a ∈ keys st.mem, a ≠ 0

/-- Modelled from the spec (amended): the rounded page total exactly
covers `s` plus one header, or the leftover after subtracting `s` and one
header size from the rounded page total is smaller than header-size + 1
bytes. -/
def specNoRemainder (s : Nat) : Prop :=
  totPageOf s * PAGE_SIZE = s + BLOCK_SIZE ∨
  totPageOf s * PAGE_SIZE - s - BLOCK_SIZE < BLOCK_SIZE + 1

instance (st : State) : Decidable (wf st) := by
  unfold wf; infer_instance

instance (s : Nat) : Decidable (specNoRemainder s) := by
  unfold specNoRemainder; infer_instance

/-! ## Concrete states used as witnesses -/

/-- The state after one successful `mymalloc 100` from `initialState 65536`:
a single in-use header at 65536. -/
def st1c : State :=
  { mem := [(65536, { size := 100, next := 0, free := false })],
    head := 65536, brk := 65660 }

/-- A state with two free headers of sizes 200 and 50 in creation order. -/
def stFit : State :=
  { mem := [(65536, { size := 200, next := 65760, free := true }),
            (65760, { size := 50, next := 0, free := true })],
    head := 65536, brk := 65834 }

/-! ## Helper lemmas about the heap representation -/

theorem keys_append (m l : List (Nat × block_t)) : keys (m ++ l) = keys m ++ keys l := by
  simp [keys]

theorem map_fst_writeBlock (mem : List (Nat × block_t)) (a : Nat) (f : block_t → block_t) :
    (writeBlock mem a f).map Prod.fst = mem.map Prod.fst := by
  induction mem with
  | nil => rfl
  | cons hd tl ih =>
    simp only [writeBlock, List.map_cons] at *
    by_cases h : hd.1 = a <;> simp [h, ih]

theorem keys_writeBlock (mem : List (Nat × block_t)) (a : Nat) (f : block_t → block_t) :
    keys (writeBlock mem a f) = keys mem :=
  map_fst_writeBlock mem a f

theorem readBlock_nil (a : Nat) : readBlock [] a = none := rfl

theorem readBlock_cons (a : Nat) (hd : Nat × block_t) (tl : List (Nat × block_t)) :
    readBlock (hd :: tl) a = if hd.1 = a then some hd.2 else readBlock tl a := rfl

theorem readBlock_writeBlock (mem : List (Nat × block_t)) (t x : Nat) (f : block_t → block_t) :
    readBlock (writeBlock mem t f) x =
      if x = t then (readBlock mem t).map f else readBlock mem x := by
  induction mem with
  | nil => by_cases hx : x = t <;> simp [writeBlock, readBlock, hx]
  | cons hd tl ih =>
    obtain ⟨k, v⟩ := hd
    have hw : writeBlock ((k, v) :: tl) t f =
        (if k = t then (k, f v) else (k, v)) :: writeBlock tl t f := rfl
    by_cases hkt : k = t <;> by_cases hxk : x = k
    · subst hkt; subst hxk
      simp [hw, readBlock_cons]
    · subst hkt
      have hkx : ¬ k = x := fun h => hxk h.symm
      simp [hw, readBlock_cons, hkx, hxk, ih]
    · subst hxk
      have hkx : ¬ x = t := fun h => hkt h
      simp [hw, readBlock_cons, hkt, hkx]
    · have hkx : ¬ k = x := fun h => hxk h.symm
      simp [hw, readBlock_cons, hkt, hkx, hxk, ih]

theorem readBlock_append_right (m l : List (Nat × block_t)) (a : Nat)
    (h : a ∉ keys m) : readBlock (m ++ l) a = readBlock l a := by
  induction m with
  | nil => simp
  | cons hd tl ih =>
    simp only [keys, List.map_cons, List.mem_cons] at h
    push_neg at h
    rw [List.cons_append, readBlock_cons, if_neg (fun hh => h.1 hh.symm)]
    exact ih (by simpa [keys] using h.2)

theorem readBlock_append_left (m l : List (Nat × block_t)) (a : Nat)
    (h : a ∈ keys m) : readBlock (m ++ l) a = readBlock m a := by
  induction m with
  | nil => simp [keys] at h
  | cons hd tl ih =>
    simp only [keys, List.map_cons, List.mem_cons] at h
    rw [List.cons_append, readBlock_cons, readBlock_cons]
    by_cases hh : hd.1 = a
    · simp [hh]
    · rw [if_neg hh, if_neg hh]
      exact ih (h.resolve_left (fun he => hh he.symm))

theorem readBlock_mem_of_nodup {mem : List (Nat × block_t)} (hnd : (keys mem).Nodup)
    {p : Nat × block_t} (hp : p ∈ mem) : readBlock mem p.1 = some p.2 := by
  induction mem with
  | nil => simp at hp
  | cons hd tl ih =>
    simp only [keys, List.map_cons, List.nodup_cons] at hnd
    rw [readBlock_cons]
    rcases List.mem_cons.1 hp with heq | htl
    · subst heq; simp
    · have hne : hd.1 ≠ p.1 := by
        intro he
        exact hnd.1 (he ▸ List.mem_map_of_mem Prod.fst htl)
      rw [if_neg hne]
      exact ih hnd.2 htl

/-! ## The traversal loop computes first-fit -/

theorem searchLoop_go (mem : List (Nat × block_t)) (s : Nat)
    (rest : List (Nat × block_t)) :
    ∀ (h fuel : Nat),
      isChainB h rest = true →
      (∀ p ∈ rest, readBlock mem p.1 = some p.2) →
      (∀ p ∈ rest, p.1 ≠ 0) →
      rest ≠ [] →
      rest.length ≤ fuel →
      searchLoop mem s fuel h =
        match rest.find? (fun p => p.2.free && decide (s ≤ p.2.size)) with
        | some p => SearchOutcome.found p.1
        | none => SearchOutcome.fallthrough (lastKey rest) := by
  induction rest with
  | nil => intro h fuel _ _ _ hne _; exact absurd rfl hne
  | cons hd tl ih =>
    intro h fuel hchain hsub hnz _ hfuel
    obtain ⟨a, b⟩ := hd
    simp only [isChainB, Bool.and_eq_true, beq_iff_eq] at hchain
    obtain ⟨rfl, hchain⟩ := hchain
    cases fuel with
    | zero => simp at hfuel
    | succ f =>
      have ha0 : h ≠ 0 := hnz (h, b) (List.mem_cons_self _ _)
      have hra : readBlock mem h = some b := hsub (h, b) (List.mem_cons_self _ _)
      simp only [searchLoop, if_neg ha0, hra]
      cases tl with
      | nil =>
        have hb0 : b.next = 0 := by simpa [isChainB] using hchain
        rw [if_neg (fun hh => hh hb0)]
        by_cases hm : (b.free && decide (s ≤ b.size)) = true
        · rw [if_pos hm, List.find?_cons_of_pos _ (by simpa using hm)]
        · rw [if_neg hm, List.find?_cons_of_neg _ (by simpa using hm)]
          rfl
      | cons q tl2 =>
        obtain ⟨qa, qb⟩ := q
        simp only [isChainB, Bool.and_eq_true, beq_iff_eq] at hchain
        obtain ⟨hbq, hchain2⟩ := hchain
        have hqnz : b.next ≠ 0 := by
          rw [hbq]
          exact hnz (qa, qb) (List.mem_cons_of_mem _ (List.mem_cons_self _ _))
        rw [if_pos hqnz]
        by_cases hm : (b.free && decide (s ≤ b.size)) = true
        · rw [if_pos hm, List.find?_cons_of_pos _ (by simpa using hm)]
        · have hrec := ih b.next f
            (by simp [isChainB, hbq, hchain2])
            (fun p hp => hsub p (List.mem_cons_of_mem _ hp))
            (fun p hp => hnz p (List.mem_cons_of_mem _ hp))
            (by simp)
            (by simp only [List.length_cons] at hfuel ⊢; omega)
          rw [if_neg hm, List.find?_cons_of_neg _ (by simpa using hm), hrec]
          rfl

/-- On a well-formed state with a non-null head, the traversal of
`nextBlock` computes first-fit over the whole list, falling through with
the last node when nothing fits. -/
theorem searchLoop_spec (st : State) (s : Nat) (hwf : wf st) (hh : st.head ≠ 0) :
    searchLoop st.mem s st.mem.length st.head =
      match st.mem.find? (fun p => p.2.free && decide (s ≤ p.2.size)) with
      | some p => SearchOutcome.found p.1
      | none => SearchOutcome.fallthrough (lastKey st.mem) := by
  obtain ⟨hchain, hnd, hnz⟩ := hwf
  have hne : st.mem ≠ [] := by
    intro hmem
    rw [hmem] at hchain
    simp only [isChainB, beq_iff_eq] at hchain
    exact hh hchain
  exact searchLoop_go st.mem s st.mem st.head st.mem.length hchain
    (fun p hp => readBlock_mem_of_nodup hnd hp)
    (fun p hp => hnz p.1 (List.mem_map_of_mem Prod.fst hp))
    hne le_rfl

/-! ## State evolution lemmas (append-only list) -/

theorem allocMap_effect (s last : Nat) (mr : Option Nat) (st : State) :
    (∃ t, keys (allocMap s last mr st).2.mem = keys st.mem ++ t ∧ t.length ≤ 2) ∧
    (allocMap s last mr st).2.head = st.head ∧
    (allocMap s last mr st).2.brk = st.brk := by
  match mr with
  | none => exact ⟨⟨[], by simp [allocMap], by simp⟩, rfl, rfl⟩
  | some pt =>
    by_cases hc : noSplitCond s = true
    · refine ⟨⟨[pt], ?_, by simp⟩, ?_, ?_⟩ <;>
        simp [allocMap, hc, keys, map_fst_writeBlock]
    · refine ⟨⟨[pt, pt + s + BLOCK_SIZE], ?_, by simp⟩, ?_, ?_⟩ <;>
        simp [allocMap, hc, keys, map_fst_writeBlock]

theorem expandHeap_effect (s last : Nat) (ok : Bool) (st : State) :
    (∃ t, keys (expandHeap s last ok st).2.mem = keys st.mem ++ t ∧ t.length ≤ 2) ∧
    (expandHeap s last ok st).2.head = st.head := by
  cases ok with
  | false => exact ⟨⟨[], by simp [expandHeap], by simp⟩, rfl⟩
  | true =>
    refine ⟨⟨[st.brk], ?_, by simp⟩, ?_⟩ <;>
      simp [expandHeap, keys, map_fst_writeBlock]

theorem nextBlock_effect (s : Nat) (ok : Bool) (mr : Option Nat) (st : State)
    (r : Nat) (st1 : State) (h : nextBlock s ok mr st = some (r, st1)) :
    (∃ t, keys st1.mem = keys st.mem ++ t ∧ t.length ≤ 2) ∧ st1.head = st.head := by
  unfold nextBlock at h
  cases hsl : searchLoop st.mem s st.mem.length st.head with
  | fault => rw [hsl] at h; exact absurd h (by simp)
  | found i =>
    rw [hsl] at h
    simp only [Option.some.injEq, Prod.mk.injEq] at h
    obtain ⟨-, rfl⟩ := h
    exact ⟨⟨[], by simp [keys_writeBlock], by simp⟩, rfl⟩
  | fallthrough i =>
    simp only [hsl] at h
    by_cases hp : PAGE_SIZE ≤ s + BLOCK_SIZE
    · rw [if_pos hp] at h
      simp only [Option.some.injEq] at h
      have := allocMap_effect s i mr st
      rw [h] at this
      exact ⟨this.1, this.2.1⟩
    · rw [if_neg hp] at h
      simp only [Option.some.injEq] at h
      have := expandHeap_effect s i ok st
      rw [h] at this
      exact this

theorem mymalloc_effect (s : Nat) (ok : Bool) (mr : Option Nat) (st : State)
    (r : Nat) (st1 : State) (h : mymalloc s ok mr st = some (r, st1)) :
    (∃ t, keys st1.mem = keys st.mem ++ t ∧ t.length ≤ 2) ∧
    (st.head ≠ 0 → st1.head = st.head) := by
  unfold mymalloc at h
  by_cases hh : st.head = 0
  · rw [if_pos hh] at h
    simp only [Option.some.injEq, Prod.mk.injEq] at h
    obtain ⟨-, rfl⟩ := h
    refine ⟨?_, fun hc => absurd hh hc⟩
    unfold init_mem
    cases ok with
    | false => exact ⟨[], by simp, by simp⟩
    | true => exact ⟨[st.brk], by simp [keys_append, keys], by simp⟩
  · rw [if_neg hh] at h
    cases hnb : nextBlock s ok mr st with
    | none => rw [hnb] at h; exact absurd h (by simp)
    | some p =>
      obtain ⟨nxt, st2⟩ := p
      simp only [hnb] at h
      have heff := nextBlock_effect s ok mr st nxt st2 hnb
      by_cases hz : nxt = 0
      · rw [if_pos hz] at h
        simp only [Option.some.injEq, Prod.mk.injEq] at h
        obtain ⟨-, rfl⟩ := h
        exact ⟨heff.1, fun _ => heff.2⟩
      · rw [if_neg hz] at h
        simp only [Option.some.injEq, Prod.mk.injEq] at h
        obtain ⟨-, rfl⟩ := h
        exact ⟨heff.1, fun _ => heff.2⟩

/-- The mmap page rounding is exact iff `s + BLOCK_SIZE` is a multiple of
the page size. -/
theorem totPage_exact_iff (s : Nat) :
    (s + BLOCK_SIZE) % PAGE_SIZE = 0 ↔ totPageOf s * PAGE_SIZE = s + BLOCK_SIZE := by
  simp only [totPageOf, PAGE_SIZE, BLOCK_SIZE]
  split <;> omega

/-! ## The claims -/

/-- C1: on the first-ever allocation with the segment extension failing,
`head` indeed stays uninitialized and no state is linked in — but
`mymalloc` does *not* return NULL: the missing NULL check on
`(block_t *) init_mem(s) + 1` makes it return the non-null address
`0 + BLOCK_SIZE`.  This theorem evaluates the code at the failing
input, exhibiting the divergence from the claim. -/
theorem mymalloc_bootstrap_sbrk_failure :
    mymalloc 100 false none (initialState 65536) =
      some (BLOCK_SIZE, initialState 65536) ∧
    BLOCK_SIZE ≠ 0 ∧ (initialState 65536).head = 0 := by
  refine ⟨by decide, by decide, rfl⟩

/-- C2: when the underlying allocation fails (here: an mmap-sized request
with the mapping refused), `mycalloc` returns NULL but still hands the
null pointer and the positive length 8000 to `memset` — the zero-fill
*is* attempted against the null result, contradicting the claim. -/
theorem mycalloc_memset_on_null :
    mycalloc 1 8000 true none st1c = some (0, st1c, 0, 8000) := by decide

/-- C3 (counterexample): at `s = 8120` the leftover after subtracting `s`
and *two* header sizes from the rounded page total is 24 < 25, so the
claim's condition demands a single header — yet the code splits,
appending two headers.  And at `s = 8158` the code takes the
single-header branch but sets the header's size field to `s = 8158`, not
to the whole mapped region (8168 usable bytes). -/
theorem allocMap_no_remainder_cx :
    totPageOf 8120 * PAGE_SIZE - 8120 - 2 * BLOCK_SIZE < BLOCK_SIZE + 1 ∧
    keys (allocMap 8120 65536 (some 131072) st1c).2.mem =
      keys st1c.mem ++ [131072, 131072 + 8120 + BLOCK_SIZE] ∧
    readBlock (allocMap 8158 65536 (some 131072) st1c).2.mem 131072 =
      some { size := 8158, next := 0, free := false } ∧
    8158 ≠ totPageOf 8158 * PAGE_SIZE - BLOCK_SIZE := by decide

/-- C3 (amended): the single-header branch is taken exactly when the
rounded page total exactly covers `s + BLOCK_SIZE`, or the leftover after
subtracting `s` and *one* header size from the rounded page total is
smaller than `BLOCK_SIZE + 1` bytes; in that branch a single header is
appended, marked in-use, with empty next and its size field set to `s`
(not to the whole mapped region). -/
theorem allocMap_no_remainder_amended (s last pt : Nat) (st : State)
    (hfresh : pt ∉ keys st.mem) :
    (noSplitCond s = true ↔ specNoRemainder s) ∧
    (noSplitCond s = true →
      (allocMap s last (some pt) st).1 = pt ∧
      keys (allocMap s last (some pt) st).2.mem = keys st.mem ++ [pt] ∧
      readBlock (allocMap s last (some pt) st).2.mem pt =
        some { size := s, next := 0, free := false }) := by
  constructor
  · unfold noSplitCond specNoRemainder
    simp only [Bool.or_eq_true, beq_iff_eq, decide_eq_true_eq, totPage_exact_iff]
  · intro hc
    have hmem : (allocMap s last (some pt) st).2.mem =
        writeBlock st.mem last (fun b => { b with next := pt }) ++
          [(pt, { size := s, next := 0, free := false })] := by
      simp [allocMap, hc]
    refine ⟨by simp [allocMap, hc], ?_, ?_⟩
    · rw [hmem]; simp [keys, map_fst_writeBlock]
    · rw [hmem, readBlock_append_right _ _ _ (by rwa [keys_writeBlock]), readBlock_cons]
      simp

theorem allocMap_no_remainder_amended_witness :
    (noSplitCond 8158 = true ↔ specNoRemainder 8158) ∧
    ((allocMap 8158 65536 (some 131072) st1c).1 = 131072 ∧
     keys (allocMap 8158 65536 (some 131072) st1c).2.mem = keys st1c.mem ++ [131072] ∧
     readBlock (allocMap 8158 65536 (some 131072) st1c).2.mem 131072 =
       some { size := 8158, next := 0, free := false }) := by
  have h := allocMap_no_remainder_amended 8158 65536 131072 st1c (by decide)
  exact ⟨h.1, h.2 (by decide)⟩

/-- C4: on a well-formed state, `nextBlock` returns the *first* node in
list order with `free == true && size >= s` (first-fit, no exact- or
best-fit preference), and clears only that node's flag. -/
theorem nextBlock_first_fit (st : State) (s a : Nat) (hwf : wf st) (hh : st.head ≠ 0)
    (hfind : firstFit s st.mem = some a) :
    ∀ ok mr, nextBlock s ok mr st =
      some (a, { st with mem := writeBlock st.mem a (fun b => { b with free := false }) }) := by
  intro ok mr
  have hspec := searchLoop_spec st s hwf hh
  unfold firstFit at hfind
  cases hf : st.mem.find? (fun p => p.2.free && decide (s ≤ p.2.size)) with
  | none => rw [hf] at hfind; simp at hfind
  | some p =>
    rw [hf] at hfind
    simp only [Option.some.injEq] at hfind
    subst hfind
    simp only [hf] at hspec
    unfold nextBlock
    rw [hspec]

/-- C4 witness: with free blocks of sizes [200, 50] in creation order and
a request for 40, the size-200 block at 65536 is selected, never the
tighter-fitting size-50 block. -/
theorem nextBlock_first_fit_witness :
    wf stFit ∧
    nextBlock 40 true none stFit =
      some (65536,
        { stFit with
          mem := writeBlock stFit.mem 65536 (fun b => { b with free := false }) }) := by
  refine ⟨by decide, ?_⟩
  exact nextBlock_first_fit stFit 40 65536 (by decide) (by decide) (by decide) true none

/-- C5: in the usable-remainder case, `allocMap` appends two back-to-back
headers: the first at the mapped base, sized exactly `s`, in use, with the
second as successor; the second at `pt + s + BLOCK_SIZE`, sized exactly
`totPage * PAGE_SIZE - s - 2 * BLOCK_SIZE`, free, with empty next; and
the previous last node is linked to the first. -/
theorem allocMap_split_structure (s last pt : Nat) (st : State)
    (hcond : noSplitCond s = false)
    (hfresh1 : pt ∉ keys st.mem)
    (hfresh2 : pt + s + BLOCK_SIZE ∉ keys st.mem)
    (hlast : last ∈ keys st.mem) :
    (allocMap s last (some pt) st).1 = pt ∧
    keys (allocMap s last (some pt) st).2.mem =
      keys st.mem ++ [pt, pt + s + BLOCK_SIZE] ∧
    readBlock (allocMap s last (some pt) st).2.mem pt =
      some { size := s, next := pt + s + BLOCK_SIZE, free := false } ∧
    readBlock (allocMap s last (some pt) st).2.mem (pt + s + BLOCK_SIZE) =
      some { size := totPageOf s * PAGE_SIZE - s - 2 * BLOCK_SIZE,
             next := 0, free := true } ∧
    readBlock (allocMap s last (some pt) st).2.mem last =
      (readBlock st.mem last).map (fun b => { b with next := pt }) := by
  have hcf : ¬ noSplitCond s = true := by simp [hcond]
  have hmem : (allocMap s last (some pt) st).2.mem =
      writeBlock st.mem last (fun b => { b with next := pt }) ++
        [(pt, { size := s, next := pt + s + BLOCK_SIZE, free := false }),
         (pt + s + BLOCK_SIZE,
          { size := totPageOf s * PAGE_SIZE - s - 2 * BLOCK_SIZE,
            next := 0, free := true })] := by
    simp [allocMap, hcf]
  refine ⟨by simp [allocMap, hcf], ?_, ?_, ?_, ?_⟩
  · rw [hmem]; simp [keys, map_fst_writeBlock]
  · rw [hmem, readBlock_append_right _ _ _ (by rwa [keys_writeBlock]), readBlock_cons]
    simp
  · rw [hmem, readBlock_append_right _ _ _ (by rwa [keys_writeBlock]), readBlock_cons,
        if_neg (by unfold BLOCK_SIZE; omega), readBlock_cons, if_pos rfl]
  · have hne1 : last ≠ pt := fun he => hfresh1 (he ▸ hlast)
    have hne2 : last ≠ pt + s + BLOCK_SIZE := fun he => hfresh2 (he ▸ hlast)
    rw [hmem, readBlock_append_left _ _ _ (by rwa [keys_writeBlock]),
        readBlock_writeBlock, if_pos rfl]

theorem allocMap_split_structure_witness :
    noSplitCond 5000 = false ∧
    (allocMap 5000 65536 (some 131072) st1c).1 = 131072 ∧
    keys (allocMap 5000 65536 (some 131072) st1c).2.mem =
      keys st1c.mem ++ [131072, 131072 + 5000 + BLOCK_SIZE] ∧
    readBlock (allocMap 5000 65536 (some 131072) st1c).2.mem 131072 =
      some { size := 5000, next := 131072 + 5000 + BLOCK_SIZE, free := false } := by
  have h := allocMap_split_structure 5000 65536 131072 st1c
    (by decide) (by decide) (by decide) (by decide)
  exact ⟨by decide, h.1, h.2.1, h.2.2.1⟩

/-- C6: `allocate(100)` returning pointer A = 65560, then `release(A)`,
then `allocate(50)` returns the very same pointer — its header (at
`A - BLOCK_SIZE = 65536`) is A's header, the list still has exactly that
one header, so nothing was newly grown or mapped. -/
theorem malloc_free_malloc_roundtrip :
    mymalloc 100 true none (initialState 65536) = some (65560, st1c) ∧
    mymalloc 50 true none (myfree 65560 st1c) = some (65560, st1c) ∧
    keys st1c.mem = [65536] ∧ 65560 - BLOCK_SIZE = 65536 := by decide

/-- C7: the first successful `allocate(n)` in a fresh state creates
exactly one header, installed as the list head with `free = false`,
`size = n`, empty next, and returns the pointer immediately following
that header. -/
theorem first_malloc_bootstraps (n b0 : Nat) (mr : Option Nat) :
    mymalloc n true mr (initialState b0) =
      some (b0 + BLOCK_SIZE,
        { mem := [(b0, { size := n, next := 0, free := false })],
          head := b0, brk := b0 + (n + BLOCK_SIZE) }) := rfl

/-- C8: the list is append-only: `mymalloc`, `mycalloc` and `myfree`
either leave the header sequence unchanged or append one or two new
headers at its end (never removing or reordering any), and once `head`
is initialized no operation resets or changes it. -/
theorem operations_append_only (s nmemb s2 p : Nat) (ok : Bool) (mr : Option Nat)
    (st : State) :
    (∀ r st1, mymalloc s ok mr st = some (r, st1) →
      (∃ t, keys st1.mem = keys st.mem ++ t ∧ t.length ≤ 2) ∧
      (st.head ≠ 0 → st1.head = st.head)) ∧
    (∀ r st1 mp ml, mycalloc nmemb s2 ok mr st = some (r, st1, mp, ml) →
      (∃ t, keys st1.mem = keys st.mem ++ t ∧ t.length ≤ 2) ∧
      (st.head ≠ 0 → st1.head = st.head)) ∧
    keys (myfree p st).mem = keys st.mem ∧ (myfree p st).head = st.head := by
  refine ⟨fun r st1 h => mymalloc_effect s ok mr st r st1 h,
          fun r st1 mp ml h => ?_,
          (show keys (myfree p st).mem = keys st.mem from
            keys_writeBlock st.mem (p - BLOCK_SIZE) (fun b => { b with free := true })),
          rfl⟩
  unfold mycalloc at h
  cases hm : mymalloc (nmemb * s2) ok mr st with
  | none => simp only [hm] at h; exact absurd h (by simp)
  | some q =>
    obtain ⟨rs, stx⟩ := q
    simp only [hm] at h
    simp only [Option.some.injEq, Prod.mk.injEq] at h
    obtain ⟨-, rfl, -, -⟩ := h
    exact mymalloc_effect (nmemb * s2) ok mr st rs stx hm

theorem operations_append_only_witness :
    (∃ t, keys st1c.mem = keys (initialState 65536).mem ++ t ∧ t.length ≤ 2) ∧
    keys (myfree 65560 st1c).mem = keys st1c.mem := by
  refine ⟨?_, ?_⟩
  · exact ((operations_append_only 100 1 1 0 true none (initialState 65536)).1
      65560 st1c (by decide)).1
  · exact (operations_append_only 100 1 1 65560 true none st1c).2.2.1

/-- C9: `myfree p` recovers the header at exactly `p - BLOCK_SIZE` and
sets its `free` flag to true, leaving that header's `size` and `next`
fields, the `head` reference, the break, the header sequence, and every
other header unchanged. -/
theorem myfree_frame (p a : Nat) (st : State) (ha : a ≠ p - BLOCK_SIZE) :
    (myfree p st).head = st.head ∧ (myfree p st).brk = st.brk ∧
    keys (myfree p st).mem = keys st.mem ∧
    readBlock (myfree p st).mem (p - BLOCK_SIZE) =
      (readBlock st.mem (p - BLOCK_SIZE)).map (fun b => { b with free := true }) ∧
    readBlock (myfree p st).mem a = readBlock st.mem a := by
  have hmm : (myfree p st).mem =
      writeBlock st.mem (p - BLOCK_SIZE) (fun b => { b with free := true }) := rfl
  refine ⟨rfl, rfl,
    (show keys (myfree p st).mem = keys st.mem from
      keys_writeBlock st.mem (p - BLOCK_SIZE) (fun b => { b with free := true })),
    ?_, ?_⟩
  · rw [hmm, readBlock_writeBlock, if_pos rfl]
  · rw [hmm, readBlock_writeBlock, if_neg ha]

theorem myfree_frame_witness :
    (myfree 65560 st1c).head = st1c.head ∧ (myfree 65560 st1c).brk = st1c.brk ∧
    keys (myfree 65560 st1c).mem = keys st1c.mem ∧
    readBlock (myfree 65560 st1c).mem (65560 - BLOCK_SIZE) =
      (readBlock st1c.mem (65560 - BLOCK_SIZE)).map (fun b => { b with free := true }) ∧
    readBlock (myfree 65560 st1c).mem 1 = readBlock st1c.mem 1 :=
  myfree_frame 65560 1 st1c (by decide)

/-- C10: `searchLoop` starts by dereferencing `head` with no null check,
but `mymalloc` only invokes `nextBlock` after observing `head ≠ 0`
(with `head = 0` it takes the bootstrap path, third conjunct); under the
precondition that the state is well-formed with non-null head, the
traversal never faults on a null or wild pointer, and when no block fits
it runs clear to the last node and returns it. -/
theorem nextBlock_traversal_safe (st : State) (s : Nat) (hwf : wf st) (hh : st.head ≠ 0) :
    searchLoop st.mem s st.mem.length st.head ≠ SearchOutcome.fault ∧
    (firstFit s st.mem = none →
      searchLoop st.mem s st.mem.length st.head =
        SearchOutcome.fallthrough (lastKey st.mem)) ∧
    ∀ s2 ok mr st2, st2.head = 0 →
      mymalloc s2 ok mr st2 =
        some ((init_mem s2 ok st2).1 + BLOCK_SIZE, (init_mem s2 ok st2).2) := by
  have hspec := searchLoop_spec st s hwf hh
  refine ⟨?_, ?_, ?_⟩
  · rw [hspec]
    cases st.mem.find? (fun p => p.2.free && decide (s ≤ p.2.size)) <;> simp
  · intro hnone
    unfold firstFit at hnone
    cases hf : st.mem.find? (fun p => p.2.free && decide (s ≤ p.2.size)) with
    | some p => rw [hf] at hnone; simp at hnone
    | none => simp only [hf] at hspec; exact hspec
  · intro s2 ok mr st2 h0
    unfold mymalloc
    rw [if_pos h0]

theorem nextBlock_traversal_safe_witness :
    searchLoop stFit.mem 300 stFit.mem.length stFit.head ≠ SearchOutcome.fault ∧
    searchLoop stFit.mem 300 stFit.mem.length stFit.head =
      SearchOutcome.fallthrough 65760 := by
  have h := nextBlock_traversal_safe stFit 300 (by decide) (by decide)
  refine ⟨h.1, ?_⟩
  have h2 := h.2.1 (by decide)
  rw [h2]
  decide

end MyMalloc
